import Mathlib

/-!
# Verification of the terrain-attribute core of the wetland-mapping notebooks

This file gives a shallow embedding, in Lean 4, of the algorithmic core of the
`digitalearthafrica/wetland` repository (the terrain-attribute notebook): the
depression filler `fill_depressions`, the TWI formula `twi`, the Depth-to-Water
computation `calcDTW`, the neighborhood kernel builder `create_kernel`, and the
multi-scale terrain-index engine `terrain_indices` (its TPI output).

Modelling conventions:
* A raster is a total function `Fin h → Fin w → ℚ` (exact rationals stand for
  the finite floating-point values of the source; the claims under study are
  about exact arithmetic identities, order and control flow, not rounding).
* NaN is modelled by `Option ℚ` with `none` for NaN wherever the source can
  produce NaN (the NaN-padded convolutions of `terrain_indices`).
* Python functions that can raise are embedded with `Except String`; a function
  whose body contains no `raise` is embedded as always returning `.ok`.
* Transcendental primitives of numpy (`log`, `tan`, `sqrt`) are taken as
  function parameters of the (otherwise fully concrete) definitions, and the
  theorems instantiate them with `Real.log`, `Real.tan`, `Real.sqrt`.  This
  keeps every definition computable while the theorems speak about the real
  mathematical functions the source computes.
-/

/-! ## Depression filler

Source (notebook cell, function `fill_depressions`):
```
def fill_depressions(dem):
    filled_dem = dem.copy()
    while True:
        marker = filled_dem.min()
        filled_dem = np.maximum(dem, marker)
        labels, num_features = label(dem > filled_dem)
        if num_features == 0:
            break
        dem = np.maximum(dem, filled_dem)
    return filled_dem
```
`scipy.ndimage.label` returns `num_features = 0` exactly when the boolean mask
is everywhere false; only that fact about `label` is used by the source, so the
loop guard is embedded directly as emptiness of the mask `dem > filled_dem`.
The unbounded `while True` loop is embedded with explicit fuel (`none` on fuel
exhaustion); the theorems below show a single iteration always suffices.
-/

/-- `arr.min()` of numpy over all cells of a raster: the least value of the
grid, with an (unreachable for nonempty grids) default of `0` for the
degenerate `h = 0` or `w = 0` shapes, on which numpy would raise. -/
def gridMin {h w : ℕ} (g : Fin h → Fin w → ℚ) : ℚ :=
  ((Finset.univ.image fun c : Fin h × Fin w => g c.1 c.2).min).untop' 0

/-- One-to-one embedding of the `while True` loop of `fill_depressions`,
with fuel.  State: the current `dem` and `filled_dem` arrays. -/
def fillLoop {h w : ℕ} : ℕ → (Fin h → Fin w → ℚ) → (Fin h → Fin w → ℚ) →
    Option (Fin h → Fin w → ℚ)
  | 0, _, _ => none
  | fuel + 1, dem, filled =>
    let marker := gridMin filled
    let filled2 : Fin h → Fin w → ℚ := fun y x => max (dem y x) marker
    if ∀ y x, ¬ (filled2 y x < dem y x) then some filled2
    else fillLoop fuel (fun y x => max (dem y x) (filled2 y x)) filled2

/-- The depression filler of the source.  The fuel `h * w + 1` is an arbitrary
positive bound on the number of iterations of the `while True` loop; the
theorems below show the loop always exits on its first iteration, so any
positive fuel yields the same result. -/
def fill_depressions {h w : ℕ} (dem : Fin h → Fin w → ℚ) :
    Option (Fin h → Fin w → ℚ) :=
  fillLoop (h * w + 1) dem dem

/-- A cell on the boundary of the `h × w` grid. -/
def boundaryCell {h w : ℕ} (c : Fin h × Fin w) : Prop :=
  (c.1 : ℕ) = 0 ∨ (c.1 : ℕ) = h - 1 ∨ (c.2 : ℕ) = 0 ∨ (c.2 : ℕ) = w - 1

instance {h w : ℕ} (c : Fin h × Fin w) : Decidable (boundaryCell c) :=
  inferInstanceAs (Decidable ((c.1 : ℕ) = 0 ∨ (c.1 : ℕ) = h - 1 ∨ (c.2 : ℕ) = 0
    ∨ (c.2 : ℕ) = w - 1))

/-- Two distinct cells within Chebyshev distance 1 (8-connectivity). -/
def adjacent {h w : ℕ} (c d : Fin h × Fin w) : Prop :=
  c ≠ d ∧ ((c.1 : ℤ) - (d.1 : ℤ)).natAbs ≤ 1 ∧ ((c.2 : ℤ) - (d.2 : ℤ)).natAbs ≤ 1

instance {h w : ℕ} (c d : Fin h × Fin w) : Decidable (adjacent c d) :=
  inferInstanceAs (Decidable (c ≠ d ∧ ((c.1 : ℤ) - (d.1 : ℤ)).natAbs ≤ 1
    ∧ ((c.2 : ℤ) - (d.2 : ℤ)).natAbs ≤ 1))

/-- `nonIncPathTo g c p` : starting from cell `c`, the list `p` of successive
cells is a path of adjacent cells along which `g` never increases, ending at a
cell on the grid boundary (for `p = []`, `c` itself must be a boundary cell). -/
def nonIncPathTo {h w : ℕ} (g : Fin h → Fin w → ℚ) :
    Fin h × Fin w → List (Fin h × Fin w) → Prop
  | c, [] => boundaryCell c
  | c, d :: p => adjacent c d ∧ g d.1 d.2 ≤ g c.1 c.2 ∧ nonIncPathTo g d p

/-- A 3 × 3 raster with a one-cell pit at the center: elevation 1 everywhere
except elevation 0 at the center cell. -/
def demPit : Fin 3 → Fin 3 → ℚ := fun y x => if y = 1 ∧ x = 1 then 0 else 1

/-! ## Topographic Wetness Index

Source (notebook cell):
```
twi = np.log(accum_d8 / (np.tan(slope) + 0.01)).astype(np.float32)
```
The cellwise formula is embedded with `log` and `tan` as parameters (the
theorems instantiate them with `Real.log` and `Real.tan`); the literal `0.01`
is the exact rational `1 / 100`.  The trailing `astype(np.float32)` is a dtype
annotation on the output array; it appears verbatim in both the claim and the
source, and the real-valued embedding models the value being cast.
-/

/-- The TWI formula of the source: `log (accum / (tan slope + 0.01))`. -/
def twi {α : Type} [LinearOrderedField α] (log tan : α → α) (accum slope : α) : α :=
  log (accum / (tan slope + 1 / 100))

/-- Modelled from the spec: "TWI: `ln(flow_accumulation / (tan(slope) + ε))`
where `ε = 0.01`", with the epsilon `eps` a parameter added to `tan slope`
before the division. -/
def twiSpecFormula {α : Type} [LinearOrderedField α] (log tan : α → α)
    (eps accum slope : α) : α :=
  log (accum / (tan slope + eps))

/-- Finiteness of the floating-point TWI value at a cell, for finite inputs:
`np.log x` is finite exactly when its argument is positive and finite, and the
argument `accum / (tan slope + 0.01)` is finite exactly when the denominator is
nonzero (float division by zero gives `±inf` or NaN, and `log` of a
nonpositive argument gives `-inf` or NaN). -/
def twiFinite {α : Type} [LinearOrderedField α] (tan : α → α) (accum slope : α) : Prop :=
  tan slope + 1 / 100 ≠ 0 ∧ 0 < accum / (tan slope + 1 / 100)

/-! ## Depth-to-Water

Source (notebook cell, function `calcDTW`; `resolution = (-30, 30)` is a
notebook global, embedded as the parameters `resx`, `resy`):
```
def calcDTW(fia, filled_dem, slope):
    t = fia * 10000 / (abs(resolution[0]) * abs(resolution[1]))
    filled_dem_rd = rd.rdarray(filled_dem, no_data=-9999)
    accum_d8 = rd.FlowAccumulation(filled_dem_rd, method='D8')
    flow_lines = accum_d8 >= t
    cost_distance = distance_transform_edt(~flow_lines)
    DTW = cost_distance * (slope / 100)
    return DTW
```
The flow-accumulation grid `accum_d8` is produced by the external `richdem`
collaborator; the embedding takes it as the input `accum` (the claims under
study quantify over it).  `distance_transform_edt(~flow_lines)` is the
Euclidean distance, in cell units, from each cell to the nearest cell where
`~flow_lines` is zero, i.e. to the nearest channel cell: the square of that
distance is the natural number `nearestDistSq` minimised over the channel set,
and the distance itself is `sqrt` of it (the `sqrt` parameter; the theorems
use `Real.sqrt`).  When the channel set is empty the distance is undefined;
scipy then returns an arbitrary finite array without raising, and the
embedding returns `sqrt 0` — no theorem below depends on the values returned
in that case, only on the fact that no error is raised.  The Python function
contains no `raise`, so the embedding always returns `.ok`.
-/

/-- Squared Euclidean distance between two cells, in cell units
(the default unit sampling of `distance_transform_edt`). -/
def distSq {h w : ℕ} (c d : Fin h × Fin w) : ℕ :=
  ((c.1 : ℤ) - (d.1 : ℤ)).natAbs ^ 2 + ((c.2 : ℤ) - (d.2 : ℤ)).natAbs ^ 2

/-- The binary channel mask `accum_d8 >= t` of `calcDTW`, as the set of cells
meeting the flow-accumulation threshold. -/
def channelCells {α : Type} [LinearOrderedField α] {h w : ℕ} (t : α)
    (accum : Fin h → Fin w → α) : Finset (Fin h × Fin w) :=
  Finset.univ.filter fun c => t ≤ accum c.1 c.2

/-- Squared distance from `c` to the nearest cell of `s` (`0` if `s` is
empty, where the source's distance transform is undefined). -/
def nearestDistSq {h w : ℕ} (s : Finset (Fin h × Fin w)) (c : Fin h × Fin w) : ℕ :=
  ((s.image fun d => distSq c d).min).untop' 0

/-- The Depth-to-Water computation of the source, step for step: threshold
`t`, binary channel mask `flow_lines`, Euclidean distance transform
`cost_distance`, and `DTW = cost_distance * (slope / 100)`. -/
def calcDTW {α : Type} [LinearOrderedField α] {h w : ℕ} (sqrt : α → α)
    (fia resx resy : α) (accum slope : Fin h → Fin w → α) :
    Except String (Fin h → Fin w → α) :=
  let t := fia * 10000 / (|resx| * |resy|)
  let flow_lines := channelCells t accum
  let cost_distance : Fin h → Fin w → α :=
    fun y x => sqrt ((nearestDistSq flow_lines (y, x) : ℕ) : α)
  Except.ok fun y x => cost_distance y x * (slope y x / 100)

/-! ## Neighborhood kernel builder

Source (notebook cell, function `create_kernel(w, method)` with `w = (kx, ky)`
and kernel shape `(ky, kx)`):
```
def create_kernel(w, method):
    kx, ky = w
    kernel = np.zeros((ky, kx))
    jy, jx = ky // 2, kx // 2
    if method == 'queen':
        kernel[:, :] = 1
    elif method == 'rook':
        kernel[jy, :] = 1
        kernel[:, jx] = 1
    elif method == 'bishop':
        np.fill_diagonal(kernel, 1)
        np.fill_diagonal(np.fliplr(kernel), 1)
    elif method == 'circle':
        y, x = np.ogrid[-jy:jy+1, -jx:jx+1]
        mask = x**2 + y**2 <= (kx // 2) ** 2
        kernel[mask] = 1
    elif method == 'annulus':
        y, x = np.ogrid[-jy:jy+1, -jx:jx+1]
        outer_mask = x**2 + y**2 <= (kx // 2) ** 2
        inner_mask = x**2 + y**2 < ((kx // 2) - 1) ** 2
        kernel[outer_mask] = 1
        kernel[inner_mask] = 0
    return kernel
```
`np.fill_diagonal(kernel, 1)` sets the entries `(i, i)` for `i < min(ky, kx)`
and `np.fill_diagonal(np.fliplr(kernel), 1)` the entries `(i, kx - 1 - i)`;
both are captured by the conditions `y = x` and `y + x = kx - 1` (which force
`y, x < min(ky, kx)` on their own).  The spec's design note makes the method a
closed enumeration, which the source dispatches on as strings. -/
inductive KernelMethod
  | queen | rook | bishop | circle | annulus
deriving DecidableEq

/-- The binary (pre-normalisation) weight matrix of shape `(ky, kx)`. -/
def create_kernel (kx ky : ℕ) (method : KernelMethod) : Fin ky → Fin kx → ℚ :=
  match method with
  | .queen => fun _ _ => 1
  | .rook => fun y x => if (y : ℕ) = ky / 2 ∨ (x : ℕ) = kx / 2 then 1 else 0
  | .bishop => fun y x => if (y : ℕ) = (x : ℕ) ∨ (y : ℕ) + (x : ℕ) = kx - 1 then 1 else 0
  | .circle => fun y x =>
      if ((x : ℤ) - ((kx / 2 : ℕ) : ℤ)) ^ 2 + ((y : ℤ) - ((ky / 2 : ℕ) : ℤ)) ^ 2
          ≤ ((kx / 2 : ℕ) : ℤ) ^ 2 then 1 else 0
  | .annulus => fun y x =>
      if ((x : ℤ) - ((kx / 2 : ℕ) : ℤ)) ^ 2 + ((y : ℤ) - ((ky / 2 : ℕ) : ℤ)) ^ 2
            ≤ ((kx / 2 : ℕ) : ℤ) ^ 2
          ∧ ¬ (((x : ℤ) - ((kx / 2 : ℕ) : ℤ)) ^ 2 + ((y : ℤ) - ((ky / 2 : ℕ) : ℤ)) ^ 2
            < ((kx : ℤ) / 2 - 1) ^ 2) then 1 else 0

/-! ## Multi-scale terrain indices (TPI output)

Source (notebook cell, function `terrain_indices`; only the parts on which the
claims bear — the validation and the Topographic Position Index — are
embedded; the remaining outputs (slope, aspect, curvatures) are raise-free
array arithmetic over the same `focal_mean` and do not enter any claim):
```
def terrain_indices(filled_dem, w=(3, 3), unit='degrees', method='queen'):
    if min(w) < 3:
        raise ValueError("Window size must be at least 3x3")
    if w[0] % 2 == 0 or w[1] % 2 == 0:
        raise ValueError("Window size must be odd")
    kernel = create_kernel(w, method)
    def focal_mean(arr, kernel):
        kernel = kernel / kernel.sum()
        return ndimage.convolve(arr, kernel, mode='constant', cval=np.nan)
    smoothed_dem = focal_mean(filled_dem, kernel)
    ...
    focal_mean_tpi = focal_mean(smoothed_dem, kernel)
    tpi_k = smoothed_dem - focal_mean_tpi
```
`ndimage.convolve` with `mode='constant', cval=np.nan` computes, at cell
`(y, x)` and for an odd `(ky, kx)` kernel with center `(jy, jx)`,
`out[y, x] = Σ_{u,v} W[u, v] * in[y + jy - u, x + jx - v]` where out-of-bounds
reads yield NaN.  NaN is modelled as `none : Option ℚ`: a float sum is NaN
exactly when some addend is NaN (`0 * NaN` is NaN too, so zero kernel weights
do not stop propagation), hence the convolution yields `some` of the exact sum
when every read in the window is `some`, and `none` otherwise.
-/

/-- Elementwise float subtraction with NaN (`none`) propagation. -/
def osub (a b : Option ℚ) : Option ℚ := a.bind fun v => b.map fun u => v - u

/-- A raster extended to all of `ℤ × ℤ` by the constant NaN padding
(`mode='constant', cval=np.nan`). -/
def extendO {h w : ℕ} (g : Fin h → Fin w → Option ℚ) (y x : ℤ) : Option ℚ :=
  if hy : 0 ≤ y ∧ y < (h : ℤ) then
    if hx : 0 ≤ x ∧ x < (w : ℤ) then g ⟨y.toNat, by omega⟩ ⟨x.toNat, by omega⟩
    else none
  else none

/-- One output cell of `ndimage.convolve(arr, W, mode='constant', cval=nan)`:
`some` of the windowed weighted sum when every read is `some`, `none` (NaN)
as soon as any read in the window is NaN. -/
def convolveAt {ky kx : ℕ} (ker : Fin ky → Fin kx → ℚ) (G : ℤ → ℤ → Option ℚ)
    (y x : ℤ) : Option ℚ :=
  if ((List.finRange ky).all fun u => (List.finRange kx).all fun v =>
      (G (y + ((ky / 2 : ℕ) : ℤ) - ((u : ℕ) : ℤ))
        (x + ((kx / 2 : ℕ) : ℤ) - ((v : ℕ) : ℤ))).isSome) then
    some (∑ u : Fin ky, ∑ v : Fin kx, ker u v *
      (G (y + ((ky / 2 : ℕ) : ℤ) - ((u : ℕ) : ℤ))
        (x + ((kx / 2 : ℕ) : ℤ) - ((v : ℕ) : ℤ))).getD 0)
  else none

/-- `kernel.sum()`. -/
def kernelSum {ky kx : ℕ} (ker : Fin ky → Fin kx → ℚ) : ℚ := ∑ u, ∑ v, ker u v

/-- The inner `focal_mean` of `terrain_indices`: normalise the kernel to unit
sum, then convolve with constant-NaN padding. -/
def focal_mean {h w ky kx : ℕ} (ker : Fin ky → Fin kx → ℚ)
    (g : Fin h → Fin w → Option ℚ) : Fin h → Fin w → Option ℚ :=
  fun y x =>
    convolveAt (fun u v => ker u v / kernelSum ker) (extendO g) ((y : ℕ) : ℤ) ((x : ℕ) : ℤ)

/-- The terrain-index engine: window validation, kernel construction, smoothed
elevation, and the TPI raster `smoothed_dem - focal_mean(smoothed_dem)`. -/
def terrain_indices {h w : ℕ} (kx ky : ℕ) (method : KernelMethod)
    (dem : Fin h → Fin w → ℚ) : Except String (Fin h → Fin w → Option ℚ) :=
  if min kx ky < 3 then Except.error ("Window size must be at least 3x3")
  else if kx % 2 = 0 ∨ ky % 2 = 0 then Except.error ("Window size must be odd")
  else
    let kernel := create_kernel kx ky method
    let demO : Fin h → Fin w → Option ℚ := fun y x => some (dem y x)
    let smoothed := focal_mean kernel demO
    Except.ok fun y x => osub (smoothed y x) (focal_mean kernel smoothed y x)

/-- A 5 × 5 planar DEM of constant slope 1 in the x direction. -/
def planeX5 : Fin 5 → Fin 5 → ℚ := fun _ x => ((x : ℕ) : ℚ)

/-- A 9 × 5 planar DEM of constant slope 1 in the y direction. -/
def planeY9x5 : Fin 9 → Fin 5 → ℚ := fun y _ => ((y : ℕ) : ℚ)

/-- Point reflection of an index about the center of an odd window. -/
def revFin {k : ℕ} (i : Fin k) : Fin k :=
  ⟨k - 1 - (i : ℕ), by have := i.isLt; omega⟩

lemma gridMin_le {h w : ℕ} (g : Fin h → Fin w → ℚ) (y : Fin h) (x : Fin w) :
    gridMin g ≤ g y x := by
  have hmem : g y x ∈ Finset.univ.image (fun c : Fin h × Fin w => g c.1 c.2) :=
    Finset.mem_image_of_mem _ (Finset.mem_univ (y, x))
  have hmin := Finset.min_le hmem
  unfold gridMin
  cases hc : (Finset.univ.image fun c : Fin h × Fin w => g c.1 c.2).min with
  | top =>
    exact absurd (Finset.min_eq_top.mp hc ▸ hmem) (Finset.not_mem_empty _)
  | coe m =>
    rw [hc] at hmin
    rw [WithTop.untop'_coe]
    exact_mod_cast hmin

/-- The first iteration of the loop always takes the `break`: the new
`filled_dem` is `max(dem, marker) ≥ dem`, so the mask `dem > filled_dem` is
empty and `label` reports zero features. -/
lemma fillLoop_exit {h w : ℕ} (fuel : ℕ) (dem : Fin h → Fin w → ℚ) :
    fillLoop (fuel + 1) dem dem = some (fun y x => max (dem y x) (gridMin dem)) := by
  show (if ∀ y x, ¬ (max (dem y x) (gridMin dem) < dem y x) then
      some (fun y x => max (dem y x) (gridMin dem))
    else fillLoop fuel (fun y x => max (dem y x) (max (dem y x) (gridMin dem)))
      (fun y x => max (dem y x) (gridMin dem))) = _
  rw [if_pos]
  intro y x
  exact not_lt.mpr (le_max_left _ _)

lemma fill_depressions_eq {h w : ℕ} (dem : Fin h → Fin w → ℚ) :
    fill_depressions dem = some (fun y x => max (dem y x) (gridMin dem)) :=
  fillLoop_exit (h * w) dem

lemma max_gridMin_eq {h w : ℕ} (dem : Fin h → Fin w → ℚ) :
    (fun y x => max (dem y x) (gridMin dem)) = dem := by
  funext y x
  exact max_eq_left (gridMin_le dem y x)

/-- C2: for every raster of (finite) elevation values, the `while` loop of
`fill_depressions` exits on its first iteration — the labelled mask
`dem > filled_dem` is everywhere false since `filled_dem = max(dem, marker)`
— and the returned raster is `max(dem, min dem)`, which is `dem` itself.
(`fillLoop 1` is the loop granted exactly one iteration of fuel; values are
rationals, so every cell is finite and NaN-free by construction.) -/
theorem fill_depressions_is_identity {h w : ℕ} (dem : Fin h → Fin w → ℚ) :
    (∀ y x, ¬ (max (dem y x) (gridMin dem) < dem y x))
      ∧ fillLoop 1 dem dem = some (fun y x => max (dem y x) (gridMin dem))
      ∧ fill_depressions dem = some (fun y x => max (dem y x) (gridMin dem))
      ∧ fill_depressions dem = some dem := by
  refine ⟨fun y x => not_lt.mpr (le_max_left _ _), fillLoop_exit 0 dem,
    fill_depressions_eq dem, ?_⟩
  rw [fill_depressions_eq dem, max_gridMin_eq dem]

/-- C3: the output of the depression filler is everywhere at least the input
(here with equality, since the filler is the identity). -/
theorem fill_depressions_ge_input {h w : ℕ} (dem : Fin h → Fin w → ℚ) :
    ∃ out, fill_depressions dem = some out ∧ ∀ y x, dem y x ≤ out y x := by
  refine ⟨_, fill_depressions_eq dem, fun y x => le_max_left _ _⟩

/-- C1 (code bug witness): on the 3 × 3 pit raster — no no-data cells — the
depression filler returns its input unchanged, and the interior center cell
admits no monotonically non-increasing path of adjacent cells to a grid
boundary cell, contradicting the documented contract that the returned DEM is
sink-free. -/
theorem fill_depressions_pit_keeps_sink :
    fill_depressions demPit = some demPit
      ∧ ¬ boundaryCell ((1, 1) : Fin 3 × Fin 3)
      ∧ ∀ p, ¬ nonIncPathTo demPit (1, 1) p := by
  refine ⟨by rw [fill_depressions_eq demPit, max_gridMin_eq demPit], by decide, fun p => ?_⟩
  cases p with
  | nil => exact fun hb => (by decide : ¬ boundaryCell ((1, 1) : Fin 3 × Fin 3)) hb
  | cons d q =>
    rintro ⟨hadj, hle, -⟩
    have : ∀ d : Fin 3 × Fin 3, adjacent (1, 1) d → ¬ (demPit d.1 d.2 ≤ demPit 1 1) := by
      decide
    exact this d hadj hle

/-- C6: the TWI raster of the source equals, cell by cell, the spec formula
`ln(flow_accumulation / (tan(slope) + ε))` with `ε = 0.01` added to
`tan(slope)` before the division (instantiated at the real `log` and `tan`
that numpy computes; the `float32` cast of the source is the dtype of the
output array and is shared verbatim with the claim). -/
theorem twi_matches_spec (a s : ℝ) :
    twi Real.log Real.tan a s = twiSpecFormula Real.log Real.tan 0.01 a s := by
  unfold twi twiSpecFormula
  norm_num

/-- C9 (counterexample): at flow accumulation `0` and slope `0` — both finite
and non-negative — the TWI value is not finite: the log argument is
`0 / 0.01 = 0` and `np.log 0 = -inf`.  Hence "TWI is finite wherever flow
accumulation and slope are finite and non-negative" fails as stated. -/
theorem twi_not_finite_at_zero_accumulation :
    (0:ℝ) ≤ 0 ∧ (0:ℝ) ≤ 0 ∧ ¬ twiFinite Real.tan (0:ℝ) 0 := by
  refine ⟨le_refl 0, le_refl 0, fun hfin => ?_⟩
  have h0 := hfin.2
  rw [zero_div] at h0
  exact lt_irrefl 0 h0

/-- C9 (amended): for cells with strictly positive flow accumulation and slope
with `0 ≤ tan slope` (the range `[0, π/2)` produced by the slope computation),
the TWI value is finite, and at fixed such slope TWI is strictly monotonically
increasing in flow accumulation. -/
theorem twi_finite_strictMono_of_pos (a1 a2 s : ℝ)
    (h1 : 0 < a1) (h12 : a1 < a2) (hs : 0 ≤ Real.tan s) :
    twiFinite Real.tan a1 s ∧ twi Real.log Real.tan a1 s < twi Real.log Real.tan a2 s := by
  have hden : 0 < Real.tan s + 1 / 100 := by linarith
  refine ⟨⟨ne_of_gt hden, div_pos h1 hden⟩, ?_⟩
  unfold twi
  exact Real.log_lt_log (div_pos h1 hden) ((div_lt_div_iff_of_pos_right hden).mpr h12)

/-- Witness for the amended C9 at accumulations `1 < 2` and slope `0`. -/
theorem twi_finite_strictMono_of_pos_witness :
    twiFinite Real.tan (1:ℝ) 0 ∧ twi Real.log Real.tan (1:ℝ) 0 < twi Real.log Real.tan 2 0 :=
  twi_finite_strictMono_of_pos 1 2 0 (by norm_num) (by norm_num)
    (le_of_eq Real.tan_zero.symm)

lemma nearestDistSq_eq_zero {h w : ℕ} (s : Finset (Fin h × Fin w)) (c : Fin h × Fin w)
    (hc : c ∈ s) : nearestDistSq s c = 0 := by
  have h0 : distSq c c = 0 := by simp [distSq]
  have hmem : (0:ℕ) ∈ s.image fun d => distSq c d :=
    h0 ▸ Finset.mem_image_of_mem _ hc
  have hmin := Finset.min_le hmem
  unfold nearestDistSq
  cases hc2 : (s.image fun d => distSq c d).min with
  | top => rw [hc2] at hmin; exact absurd hmin (by simp)
  | coe m =>
    rw [hc2] at hmin
    rw [WithTop.untop'_coe]
    exact Nat.le_zero.mp (by exact_mod_cast hmin)

/-- C4 (counterexample): a concrete input on which no cell meets the flow
threshold — the channel mask is empty — yet `calcDTW` returns a result
(`.ok`) instead of failing fast with an error: the 1 × 1 raster with flow
accumulation 1, `fia = 1` and 30 m cells, whose threshold is
`10000 / 900 > 1`. -/
theorem calcDTW_empty_mask_returns_ok :
    channelCells ((1:ℝ) * 10000 / (|(-30:ℝ)| * |(30:ℝ)|))
        ((fun _ _ => (1:ℝ)) : Fin 1 → Fin 1 → ℝ) = ∅
      ∧ ∃ g, calcDTW Real.sqrt (1:ℝ) (-30) 30 ((fun _ _ => (1:ℝ)) : Fin 1 → Fin 1 → ℝ)
          ((fun _ _ => (0:ℝ)) : Fin 1 → Fin 1 → ℝ) = Except.ok g := by
  constructor
  · apply Finset.eq_empty_of_forall_not_mem
    intro c hc
    rw [channelCells, Finset.mem_filter] at hc
    have h2 := hc.2
    rw [show |(-30:ℝ)| * |(30:ℝ)| = 900 by rw [abs_neg]; rw [abs_of_pos] <;> norm_num] at h2
    norm_num at h2
  · exact ⟨_, rfl⟩

/-- C4 (amended): `calcDTW` performs no emptiness check on the channel mask
and contains no error path at all: for every input — in particular every
input whose channel mask is empty — it returns a DTW raster, never an
error. -/
theorem calcDTW_never_errors {h w : ℕ} (fia resx resy : ℝ)
    (accum slope : Fin h → Fin w → ℝ) :
    ∃ g, calcDTW Real.sqrt fia resx resy accum slope = Except.ok g :=
  ⟨_, rfl⟩

/-- C7: with a non-empty channel mask and a (non-negative) percent-slope
raster, the DTW raster is `0` at every cell whose flow accumulation meets the
threshold `t = fia * 10000 / cell_area`, and for constant slope it is
non-decreasing in the Euclidean distance from the cell to its nearest channel
cell. -/
theorem calcDTW_zero_on_channels_monotone {h w : ℕ} (fia resx resy : ℝ)
    (accum slope : Fin h → Fin w → ℝ)
    (hslope : ∀ y x, 0 ≤ slope y x)
    (_hmask : (channelCells (fia * 10000 / (|resx| * |resy|)) accum).Nonempty) :
    ∃ dtw, calcDTW Real.sqrt fia resx resy accum slope = Except.ok dtw
      ∧ (∀ y x, fia * 10000 / (|resx| * |resy|) ≤ accum y x → dtw y x = 0)
      ∧ (∀ s : ℝ, (∀ y x, slope y x = s) → ∀ c1 c2 : Fin h × Fin w,
          Real.sqrt ((nearestDistSq (channelCells (fia * 10000 / (|resx| * |resy|)) accum) c1 : ℕ) : ℝ)
            ≤ Real.sqrt ((nearestDistSq (channelCells (fia * 10000 / (|resx| * |resy|)) accum) c2 : ℕ) : ℝ) →
          dtw c1.1 c1.2 ≤ dtw c2.1 c2.2) := by
  refine ⟨fun y x =>
      Real.sqrt ((nearestDistSq (channelCells (fia * 10000 / (|resx| * |resy|)) accum) (y, x) : ℕ) : ℝ)
        * (slope y x / 100), rfl, ?_, ?_⟩
  · intro y x hch
    have hc : ((y, x) : Fin h × Fin w) ∈ channelCells (fia * 10000 / (|resx| * |resy|)) accum :=
      Finset.mem_filter.mpr ⟨Finset.mem_univ _, hch⟩
    beta_reduce
    rw [nearestDistSq_eq_zero _ _ hc]
    simp
  · intro s hconst c1 c2 hd
    have hs : 0 ≤ s := hconst c1.1 c1.2 ▸ hslope c1.1 c1.2
    beta_reduce
    rw [hconst c1.1 c1.2, hconst c2.1 c2.2]
    exact mul_le_mul_of_nonneg_right hd (by linarith)

/-- Witness for C7 on a concrete 1 × 1 raster whose single cell is a channel
cell: flow accumulation 100 against threshold `10000 / 900`, slope 50 %. -/
theorem calcDTW_zero_on_channels_monotone_witness :
    ∃ dtw, calcDTW Real.sqrt (1:ℝ) (-30) 30 ((fun _ _ => (100:ℝ)) : Fin 1 → Fin 1 → ℝ)
        ((fun _ _ => (50:ℝ)) : Fin 1 → Fin 1 → ℝ) = Except.ok dtw
      ∧ dtw 0 0 = 0 := by
  have habs : |(-30:ℝ)| * |(30:ℝ)| = 900 := by rw [abs_neg]; rw [abs_of_pos] <;> norm_num
  have hth : (1:ℝ) * 10000 / (|(-30:ℝ)| * |(30:ℝ)|) ≤ 100 := by rw [habs]; norm_num
  obtain ⟨dtw, hok, hzero, -⟩ :=
    calcDTW_zero_on_channels_monotone 1 (-30) 30
      ((fun _ _ => (100:ℝ)) : Fin 1 → Fin 1 → ℝ) ((fun _ _ => (50:ℝ)) : Fin 1 → Fin 1 → ℝ)
      (fun _ _ => by norm_num)
      ⟨(0, 0), Finset.mem_filter.mpr ⟨Finset.mem_univ _, hth⟩⟩
  exact ⟨dtw, hok, hzero 0 0 hth⟩

/-- C8: kernel sums for the 5 × 5 window — `queen` sums to 25 (all ones),
`rook` to `2 * 5 - 1 = 9` (center row plus center column, center counted
once), `bishop` to 9 (both diagonals, center counted once). -/
theorem create_kernel_sums_5x5 :
    (∑ y : Fin 5, ∑ x : Fin 5, create_kernel 5 5 KernelMethod.queen y x) = 25
    ∧ (∑ y : Fin 5, ∑ x : Fin 5, create_kernel 5 5 KernelMethod.rook y x) = 9
    ∧ (∑ y : Fin 5, ∑ x : Fin 5, create_kernel 5 5 KernelMethod.bishop y x) = 9 := by
  refine ⟨?_, ?_, ?_⟩ <;>
  · simp only [create_kernel, Fin.sum_univ_five, Fin.val_zero, Fin.val_one]
    norm_num [show ((2 : Fin 5) : ℕ) = 2 from rfl, show ((3 : Fin 5) : ℕ) = 3 from rfl,
      show ((4 : Fin 5) : ℕ) = 4 from rfl]

/-- C5: the terrain-index computation rejects, before any computation, every
window with an even dimension or a dimension below 3, with the source's two
descriptive error messages (sizes below 3 are caught first), and raises no
error on any odd window with both dimensions at least 3. -/
theorem terrain_indices_window_validation {h w : ℕ} (kx ky : ℕ)
    (method : KernelMethod) (dem : Fin h → Fin w → ℚ) :
    (min kx ky < 3 → terrain_indices kx ky method dem
        = Except.error ("Window size must be at least 3x3"))
      ∧ (3 ≤ min kx ky → kx % 2 = 0 ∨ ky % 2 = 0 → terrain_indices kx ky method dem
        = Except.error ("Window size must be odd"))
      ∧ (kx % 2 = 1 → ky % 2 = 1 → 3 ≤ kx → 3 ≤ ky →
        ∃ tpi, terrain_indices kx ky method dem = Except.ok tpi) := by
  refine ⟨fun hlt => ?_, fun hge hev => ?_, fun hox hoy h3x h3y => ?_⟩
  · unfold terrain_indices
    rw [if_pos hlt]
  · unfold terrain_indices
    rw [if_neg (by omega), if_pos hev]
  · unfold terrain_indices
    rw [if_neg (by omega), if_neg (by omega)]
    exact ⟨_, rfl⟩

/-- Witness for C5 at the windows `(2,2)` (too small), `(4,5)` (even first
dimension) and `(3,3)` (valid), on a 1 × 1 raster. -/
theorem terrain_indices_window_validation_witness :
    terrain_indices 2 2 KernelMethod.queen ((fun _ _ => (0:ℚ)) : Fin 1 → Fin 1 → ℚ)
        = Except.error ("Window size must be at least 3x3")
      ∧ terrain_indices 4 5 KernelMethod.queen ((fun _ _ => (0:ℚ)) : Fin 1 → Fin 1 → ℚ)
        = Except.error ("Window size must be odd")
      ∧ ∃ tpi, terrain_indices 3 3 KernelMethod.queen ((fun _ _ => (0:ℚ)) : Fin 1 → Fin 1 → ℚ)
        = Except.ok tpi :=
  ⟨(terrain_indices_window_validation 2 2 KernelMethod.queen _).1 (by decide),
    (terrain_indices_window_validation 4 5 KernelMethod.queen _).2.1 (by decide)
      (Or.inl (by decide)),
    (terrain_indices_window_validation 3 3 KernelMethod.queen _).2.2 rfl rfl
      (by decide) (by decide)⟩

/-- C10 (counterexample): on perfectly planar DEMs the TPI raster is not zero
at every cell.  (i) With the square window `(3,3)` (queen), the corner cell of
the TPI raster is NaN — the constant NaN padding of the convolution reaches
every cell within `2 * (k / 2)` of an edge — hence not zero.  (ii) With the
valid non-square window `(kx, ky) = (3, 5)` and the bishop method the kernel
is not point-symmetric, and even a deep-interior TPI cell equals `-1`, not
zero. -/
theorem terrain_indices_tpi_nonzero_cases :
    (∃ tpi, terrain_indices 3 3 KernelMethod.queen planeX5 = Except.ok tpi
      ∧ tpi 0 0 ≠ some 0)
    ∧ (∃ tpi, terrain_indices 3 5 KernelMethod.bishop planeY9x5 = Except.ok tpi
      ∧ tpi 4 2 = some (-1) ∧ (some (-1 : ℚ)) ≠ some 0) := by
  constructor
  · refine ⟨_, rfl, ?_⟩
    with_unfolding_all decide
  · refine ⟨_, rfl, ?_, by simp⟩
    with_unfolding_all decide

@[simp] lemma revFin_val {k : ℕ} (i : Fin k) : ((revFin i : Fin k) : ℕ) = k - 1 - (i : ℕ) :=
  rfl

lemma create_kernel_nonneg (kx ky : ℕ) (m : KernelMethod) (u : Fin ky) (v : Fin kx) :
    0 ≤ create_kernel kx ky m u v := by
  cases m with
  | queen => norm_num [create_kernel]
  | rook => simp only [create_kernel]; split <;> norm_num
  | bishop => simp only [create_kernel]; split <;> norm_num
  | circle => simp only [create_kernel]; split <;> norm_num
  | annulus => simp only [create_kernel]; split <;> norm_num

lemma kernelSum_pos {k : ℕ} (hk3 : 3 ≤ k) (m : KernelMethod) :
    0 < kernelSum (create_kernel k k m) := by
  have hkpos : 0 < k := by omega
  have hj : k / 2 < k := by omega
  obtain ⟨u0, v0, h1⟩ : ∃ u0 v0 : Fin k, create_kernel k k m u0 v0 = 1 := by
    cases m with
    | queen => exact ⟨⟨0, hkpos⟩, ⟨0, hkpos⟩, rfl⟩
    | rook =>
      refine ⟨⟨k / 2, hj⟩, ⟨0, hkpos⟩, ?_⟩
      simp [create_kernel]
    | bishop =>
      refine ⟨⟨0, hkpos⟩, ⟨0, hkpos⟩, ?_⟩
      simp [create_kernel]
    | circle =>
      refine ⟨⟨k / 2, hj⟩, ⟨k / 2, hj⟩, ?_⟩
      simp only [create_kernel]
      rw [if_pos]
      simp only [Fin.val_mk, sub_self]
      nlinarith [sq_nonneg (((k / 2 : ℕ) : ℤ))]
    | annulus =>
      refine ⟨⟨k / 2, hj⟩, ⟨0, hkpos⟩, ?_⟩
      have hg1 : (1:ℤ) ≤ ((k / 2 : ℕ) : ℤ) := by omega
      have hg2 : ((k:ℤ) / 2) = ((k / 2 : ℕ) : ℤ) := by omega
      simp only [create_kernel, Fin.val_mk]
      rw [if_pos]
      refine ⟨by push_cast; nlinarith, ?_⟩
      rw [hg2]
      intro hcon
      push_cast at hcon
      nlinarith
  have hnn : ∀ u : Fin k, (0:ℚ) ≤ ∑ v : Fin k, create_kernel k k m u v :=
    fun u => Finset.sum_nonneg fun v _ => create_kernel_nonneg k k m u v
  have step1 : create_kernel k k m u0 v0 ≤ ∑ v : Fin k, create_kernel k k m u0 v :=
    Finset.single_le_sum (fun v _ => create_kernel_nonneg k k m u0 v) (Finset.mem_univ v0)
  have step2 : (∑ v : Fin k, create_kernel k k m u0 v)
      ≤ ∑ u : Fin k, ∑ v : Fin k, create_kernel k k m u v :=
    Finset.single_le_sum (fun u _ => hnn u) (Finset.mem_univ u0)
  have : (1:ℚ) ≤ kernelSum (create_kernel k k m) := by
    rw [← h1]
    exact le_trans step1 step2
  linarith

lemma create_kernel_symm {k : ℕ} (hk : k % 2 = 1) (m : KernelMethod) (u v : Fin k) :
    create_kernel k k m (revFin u) (revFin v) = create_kernel k k m u v := by
  have hu := u.isLt
  have hv := v.isLt
  cases m with
  | queen => rfl
  | rook =>
    simp only [create_kernel, revFin_val]
    have hiff : (k - 1 - (u : ℕ) = k / 2 ∨ k - 1 - (v : ℕ) = k / 2)
        ↔ ((u : ℕ) = k / 2 ∨ (v : ℕ) = k / 2) := by omega
    exact if_congr hiff rfl rfl
  | bishop =>
    simp only [create_kernel, revFin_val]
    have hiff : (k - 1 - (u : ℕ) = k - 1 - (v : ℕ)
          ∨ (k - 1 - (u : ℕ)) + (k - 1 - (v : ℕ)) = k - 1)
        ↔ ((u : ℕ) = (v : ℕ) ∨ (u : ℕ) + (v : ℕ) = k - 1) := by omega
    exact if_congr hiff rfl rfl
  | circle =>
    simp only [create_kernel, revFin_val]
    have ev : ((k - 1 - (v : ℕ) : ℕ) : ℤ) - ((k / 2 : ℕ) : ℤ)
        = -(((v : ℕ) : ℤ) - ((k / 2 : ℕ) : ℤ)) := by omega
    have eu : ((k - 1 - (u : ℕ) : ℕ) : ℤ) - ((k / 2 : ℕ) : ℤ)
        = -(((u : ℕ) : ℤ) - ((k / 2 : ℕ) : ℤ)) := by omega
    simp only [ev, eu, neg_sq]
  | annulus =>
    simp only [create_kernel, revFin_val]
    have ev : ((k - 1 - (v : ℕ) : ℕ) : ℤ) - ((k / 2 : ℕ) : ℤ)
        = -(((v : ℕ) : ℤ) - ((k / 2 : ℕ) : ℤ)) := by omega
    have eu : ((k - 1 - (u : ℕ) : ℕ) : ℤ) - ((k / 2 : ℕ) : ℤ)
        = -(((u : ℕ) : ℤ) - ((k / 2 : ℕ) : ℤ)) := by omega
    simp only [ev, eu, neg_sq]

lemma revFin_bijective {k : ℕ} : Function.Bijective (revFin : Fin k → Fin k) := by
  constructor
  · intro i j hij
    have h1 := congrArg (fun z : Fin k => (z : ℕ)) hij
    simp only [revFin_val] at h1
    have := i.isLt
    have := j.isLt
    exact Fin.ext (by omega)
  · intro j
    refine ⟨revFin j, ?_⟩
    have := j.isLt
    exact Fin.ext (by simp only [revFin_val]; omega)

/-- For a point-symmetric kernel, the kernel-weighted sum of any factor that is
odd under point reflection of the first index vanishes. -/
lemma sum_symm_kernel_odd {k : ℕ} (ker : Fin k → Fin k → ℚ)
    (hsym : ∀ u v, ker (revFin u) (revFin v) = ker u v)
    (c : Fin k → ℚ) (hc : ∀ u, c (revFin u) = - c u) :
    ∑ u : Fin k, ∑ v : Fin k, ker u v * c u = 0 := by
  have hre : (∑ u : Fin k, ∑ v : Fin k, ker (revFin u) (revFin v) * c (revFin u))
      = ∑ u : Fin k, ∑ v : Fin k, ker u v * c u := by
    refine Fintype.sum_bijective revFin revFin_bijective _ _ fun u => ?_
    exact Fintype.sum_bijective revFin revFin_bijective _ _ fun v => rfl
  have hneg : (∑ u : Fin k, ∑ v : Fin k, ker (revFin u) (revFin v) * c (revFin u))
      = - ∑ u : Fin k, ∑ v : Fin k, ker u v * c u := by
    rw [← Finset.sum_neg_distrib]
    refine Finset.sum_congr rfl fun u _ => ?_
    rw [← Finset.sum_neg_distrib]
    refine Finset.sum_congr rfl fun v _ => ?_
    rw [hsym, hc]
    ring
  linarith [hre.symm.trans hneg]

lemma sum_ker_row_zero {k : ℕ} (hk : k % 2 = 1) (m : KernelMethod) :
    ∑ u : Fin k, ∑ v : Fin k, create_kernel k k m u v
      * (((k / 2 : ℕ) : ℚ) - ((u : ℕ) : ℚ)) = 0 := by
  refine sum_symm_kernel_odd _ (create_kernel_symm hk m)
    (fun u => ((k / 2 : ℕ) : ℚ) - ((u : ℕ) : ℚ)) fun u => ?_
  have hu := u.isLt
  simp only [revFin_val]
  rw [Nat.cast_sub (by omega : (u : ℕ) ≤ k - 1), Nat.cast_sub (by omega : 1 ≤ k)]
  have h2 : ((k / 2 : ℕ) : ℚ) * 2 = (k : ℚ) - 1 := by
    have h3 : ((k / 2) * 2 : ℕ) = k - 1 := by omega
    calc ((k / 2 : ℕ) : ℚ) * 2 = (((k / 2) * 2 : ℕ) : ℚ) := by push_cast; ring
      _ = ((k - 1 : ℕ) : ℚ) := by rw [h3]
      _ = (k : ℚ) - 1 := by rw [Nat.cast_sub (by omega : 1 ≤ k)]; norm_num
  linarith

lemma sum_ker_col_zero {k : ℕ} (hk : k % 2 = 1) (m : KernelMethod) :
    ∑ u : Fin k, ∑ v : Fin k, create_kernel k k m u v
      * (((k / 2 : ℕ) : ℚ) - ((v : ℕ) : ℚ)) = 0 := by
  rw [Finset.sum_comm]
  refine sum_symm_kernel_odd (fun p q => create_kernel k k m q p)
    (fun p q => create_kernel_symm hk m q p)
    (fun p => ((k / 2 : ℕ) : ℚ) - ((p : ℕ) : ℚ)) fun p => ?_
  have hp := p.isLt
  simp only [revFin_val]
  rw [Nat.cast_sub (by omega : (p : ℕ) ≤ k - 1), Nat.cast_sub (by omega : 1 ≤ k)]
  have h2 : ((k / 2 : ℕ) : ℚ) * 2 = (k : ℚ) - 1 := by
    have h3 : ((k / 2) * 2 : ℕ) = k - 1 := by omega
    calc ((k / 2 : ℕ) : ℚ) * 2 = (((k / 2) * 2 : ℕ) : ℚ) := by push_cast; ring
      _ = ((k - 1 : ℕ) : ℚ) := by rw [h3]
      _ = (k : ℚ) - 1 := by rw [Nat.cast_sub (by omega : 1 ≤ k)]; norm_num
  linarith

/-- The normalised convolution of any square odd kernel with a plane, at a
cell whose whole window reads plane values, is the plane value at the cell:
the kernel weights sum to one and the linear terms cancel by the point
symmetry of every kernel method. -/
lemma convolveAt_plane {k : ℕ} (hk3 : 3 ≤ k) (hk : k % 2 = 1) (m : KernelMethod)
    (a b c0 : ℚ) (G : ℤ → ℤ → Option ℚ) (y x : ℤ)
    (hG : ∀ u v : Fin k,
      G (y + ((k / 2 : ℕ) : ℤ) - ((u : ℕ) : ℤ)) (x + ((k / 2 : ℕ) : ℤ) - ((v : ℕ) : ℤ))
        = some (a * (((y + ((k / 2 : ℕ) : ℤ) - ((u : ℕ) : ℤ)) : ℤ) : ℚ)
            + b * (((x + ((k / 2 : ℕ) : ℤ) - ((v : ℕ) : ℤ)) : ℤ) : ℚ) + c0)) :
    convolveAt (fun u v => create_kernel k k m u v / kernelSum (create_kernel k k m)) G y x
      = some (a * (y : ℚ) + b * (x : ℚ) + c0) := by
  have hS := kernelSum_pos hk3 m
  have hSne : kernelSum (create_kernel k k m) ≠ 0 := ne_of_gt hS
  unfold convolveAt
  rw [if_pos]
  swap
  · simp only [List.all_eq_true, List.mem_finRange, forall_const]
    intro u v
    rw [hG u v]
    rfl
  congr 1
  have hG2 : ∀ u v : Fin k,
      (G (y + ((k / 2 : ℕ) : ℤ) - ((u : ℕ) : ℤ))
        (x + ((k / 2 : ℕ) : ℤ) - ((v : ℕ) : ℤ))).getD 0
      = a * ((y : ℚ) + ((k / 2 : ℕ) : ℚ) - ((u : ℕ) : ℚ))
        + b * ((x : ℚ) + ((k / 2 : ℕ) : ℚ) - ((v : ℕ) : ℚ)) + c0 := by
    intro u v
    rw [hG u v, Option.getD_some]
    simp only [Int.cast_add, Int.cast_sub, Int.cast_natCast]
  simp only [hG2]
  have expand : ∀ u v : Fin k,
      create_kernel k k m u v / kernelSum (create_kernel k k m)
          * (a * ((y : ℚ) + ((k / 2 : ℕ) : ℚ) - ((u : ℕ) : ℚ))
            + b * ((x : ℚ) + ((k / 2 : ℕ) : ℚ) - ((v : ℕ) : ℚ)) + c0)
        = create_kernel k k m u v * (a * (y : ℚ) + b * (x : ℚ) + c0)
            / kernelSum (create_kernel k k m)
          + a / kernelSum (create_kernel k k m)
            * (create_kernel k k m u v * (((k / 2 : ℕ) : ℚ) - ((u : ℕ) : ℚ)))
          + b / kernelSum (create_kernel k k m)
            * (create_kernel k k m u v * (((k / 2 : ℕ) : ℚ) - ((v : ℕ) : ℚ))) := by
    intro u v
    ring
  simp only [expand, Finset.sum_add_distrib, ← Finset.sum_div, ← Finset.mul_sum]
  rw [sum_ker_row_zero hk m, sum_ker_col_zero hk m]
  simp only [mul_zero, add_zero]
  rw [div_eq_iff hSne]
  unfold kernelSum
  simp only [← Finset.sum_mul]
  ring

lemma cast_toNat_eq {z : ℤ} (hz : 0 ≤ z) : ((z.toNat : ℕ) : ℚ) = (z : ℚ) := by
  rw [← Int.cast_natCast, Int.toNat_of_nonneg hz]

/-- `focal_mean` at a cell whose whole window reads plane values is the plane
value at the cell. -/
lemma focal_mean_plane_cell {h w k : ℕ} (hk3 : 3 ≤ k) (hk : k % 2 = 1)
    (m : KernelMethod) (a b c0 : ℚ) (g : Fin h → Fin w → Option ℚ)
    (Y : Fin h) (X : Fin w)
    (hwin : ∀ u v : Fin k,
      extendO g (((Y : ℕ) : ℤ) + ((k / 2 : ℕ) : ℤ) - ((u : ℕ) : ℤ))
        (((X : ℕ) : ℤ) + ((k / 2 : ℕ) : ℤ) - ((v : ℕ) : ℤ))
        = some (a * (((((Y : ℕ) : ℤ) + ((k / 2 : ℕ) : ℤ) - ((u : ℕ) : ℤ)) : ℤ) : ℚ)
            + b * (((((X : ℕ) : ℤ) + ((k / 2 : ℕ) : ℤ) - ((v : ℕ) : ℤ)) : ℤ) : ℚ) + c0)) :
    focal_mean (create_kernel k k m) g Y X
      = some (a * ((Y : ℕ) : ℚ) + b * ((X : ℕ) : ℚ) + c0) := by
  have hmain := convolveAt_plane hk3 hk m a b c0 (extendO g) ((Y : ℕ) : ℤ) ((X : ℕ) : ℤ) hwin
  unfold focal_mean
  rw [hmain]
  norm_num

/-- C10 (amended): for every planar (constant-gradient) DEM, every square odd
window `(k, k)` with `k ≥ 3` and every contiguity method, the TPI raster is
zero at every cell at distance at least `2 * (k / 2)` from each raster edge.
(Cells nearer an edge are NaN through the constant NaN padding, and for
non-square windows the bishop kernel is asymmetric — both shown in the
counterexample — so this is the sharpest planar zero statement the code
satisfies.) -/
theorem terrain_indices_tpi_zero_deep_interior {h w : ℕ} (k : ℕ)
    (hk3 : 3 ≤ k) (hk : k % 2 = 1) (m : KernelMethod)
    (a b c0 : ℚ) (dem : Fin h → Fin w → ℚ)
    (hdem : ∀ y x, dem y x = a * ((y : ℕ) : ℚ) + b * ((x : ℕ) : ℚ) + c0)
    (Y : Fin h) (X : Fin w)
    (hY1 : 2 * (k / 2) ≤ (Y : ℕ)) (hY2 : (Y : ℕ) + 2 * (k / 2) < h)
    (hX1 : 2 * (k / 2) ≤ (X : ℕ)) (hX2 : (X : ℕ) + 2 * (k / 2) < w) :
    ∃ tpi, terrain_indices k k m dem = Except.ok tpi ∧ tpi Y X = some 0 := by
  unfold terrain_indices
  rw [if_neg (by omega), if_neg (by omega)]
  refine ⟨_, rfl, ?_⟩
  beta_reduce
  have hsm : ∀ (q : Fin h) (p : Fin w), k / 2 ≤ (q : ℕ) → (q : ℕ) + k / 2 < h →
      k / 2 ≤ (p : ℕ) → (p : ℕ) + k / 2 < w →
      focal_mean (create_kernel k k m) (fun yy xx => some (dem yy xx)) q p
        = some (a * ((q : ℕ) : ℚ) + b * ((p : ℕ) : ℚ) + c0) := by
    intro q p hq1 hq2 hp1 hp2
    apply focal_mean_plane_cell hk3 hk m
    intro u v
    have hu := u.isLt
    have hv := v.isLt
    have hy0 : 0 ≤ ((q : ℕ) : ℤ) + ((k / 2 : ℕ) : ℤ) - ((u : ℕ) : ℤ) := by omega
    have hy1 : ((q : ℕ) : ℤ) + ((k / 2 : ℕ) : ℤ) - ((u : ℕ) : ℤ) < (h : ℤ) := by omega
    have hx0 : 0 ≤ ((p : ℕ) : ℤ) + ((k / 2 : ℕ) : ℤ) - ((v : ℕ) : ℤ) := by omega
    have hx1 : ((p : ℕ) : ℤ) + ((k / 2 : ℕ) : ℤ) - ((v : ℕ) : ℤ) < (w : ℤ) := by omega
    unfold extendO
    rw [dif_pos ⟨hy0, hy1⟩, dif_pos ⟨hx0, hx1⟩]
    beta_reduce
    rw [hdem]
    simp only [Fin.val_mk]
    rw [cast_toNat_eq hy0, cast_toNat_eq hx0]
  have houter : focal_mean (create_kernel k k m)
      (focal_mean (create_kernel k k m) (fun yy xx => some (dem yy xx))) Y X
      = some (a * ((Y : ℕ) : ℚ) + b * ((X : ℕ) : ℚ) + c0) := by
    apply focal_mean_plane_cell hk3 hk m
    intro u v
    have hu := u.isLt
    have hv := v.isLt
    have hy0 : 0 ≤ ((Y : ℕ) : ℤ) + ((k / 2 : ℕ) : ℤ) - ((u : ℕ) : ℤ) := by omega
    have hy1 : ((Y : ℕ) : ℤ) + ((k / 2 : ℕ) : ℤ) - ((u : ℕ) : ℤ) < (h : ℤ) := by omega
    have hx0 : 0 ≤ ((X : ℕ) : ℤ) + ((k / 2 : ℕ) : ℤ) - ((v : ℕ) : ℤ) := by omega
    have hx1 : ((X : ℕ) : ℤ) + ((k / 2 : ℕ) : ℤ) - ((v : ℕ) : ℤ) < (w : ℤ) := by omega
    unfold extendO
    rw [dif_pos ⟨hy0, hy1⟩, dif_pos ⟨hx0, hx1⟩]
    rw [hsm _ _ (by simp only [Fin.val_mk]; omega) (by simp only [Fin.val_mk]; omega)
      (by simp only [Fin.val_mk]; omega) (by simp only [Fin.val_mk]; omega)]
    simp only [Fin.val_mk]
    rw [cast_toNat_eq hy0, cast_toNat_eq hx0]
  rw [hsm Y X (by omega) (by omega) (by omega) (by omega), houter]
  simp [osub]

/-- Witness for the amended C10: the planar DEM of slope 1 in x on the 5 × 5
grid, window `(3,3)`, queen contiguity, at the central cell `(2,2)` (distance
`2 = 2 * (3 / 2)` from every edge). -/
theorem terrain_indices_tpi_zero_deep_interior_witness :
    ∃ tpi, terrain_indices 3 3 KernelMethod.queen planeX5 = Except.ok tpi
      ∧ tpi 2 2 = some 0 := by
  have hdem : ∀ (y : Fin 5) (x : Fin 5),
      planeX5 y x = 0 * ((y : ℕ) : ℚ) + 1 * ((x : ℕ) : ℚ) + 0 := by
    intro y x
    simp [planeX5]
  exact terrain_indices_tpi_zero_deep_interior 3 (by norm_num) (by norm_num)
    KernelMethod.queen 0 1 0 planeX5 hdem 2 2 (by decide) (by decide) (by decide) (by decide)
